import Mathlib

/-
  Verification of the ordering-operation layer of the ivy repository
  (functional/ivy/sorting.py and data_classes/container/sorting.py).

  The functional layer forwards every operation to a backend
  (`ivy.current_backend(x).op(...)`); the backend implementations and
  `ContainerBase.cont_multi_map_in_function` are outside this excerpt, so
  those parts are modelled from the specification, as marked on each
  definition.  Everything about the module/class structure of the two
  files is translated directly from the source.
-/

set_option linter.unusedVariables false

namespace IvySorting

/-- Modelled from the spec: the comparison order used by the backend
`sort`/`argsort` contract; `descending := true` flips the order. -/
def keyLe (descending : Bool) (a b : Int) : Bool :=
  if descending then decide (b ≤ a) else decide (a ≤ b)

/-- Stable ordered insertion: `a` is placed before the first element `h`
with `le a h`; since `insSort` inserts elements from the right, `a` is
original-earlier than the list it is inserted into, and ties keep `a`
first, giving stability. -/
def insertOrd (le : α → α → Bool) (a : α) : List α → List α
  | [] => [a]
  | h :: t => if le a h then a :: h :: t else h :: insertOrd le a t

/-- Stable insertion sort with a boolean comparison. -/
def insSort (le : α → α → Bool) : List α → List α
  | [] => []
  | a :: l => insertOrd le a (insSort le l)

/-- Modelled from the spec: the backend `sort` contract on one lane (the
1-d slice of the input along the sorting axis).  A stable insertion sort;
when `stable := false` the relative order of equal elements is
unspecified by the contract, and this model returns the stable order,
which is one permitted outcome. -/
def sort1 (descending stable : Bool) (x : List Int) : List Int :=
  insSort (keyLe descending) x

/-- Modelled from the spec: the backend `argsort` contract on one lane:
the permutation of positions that produces the sorted order, obtained by
stably sorting the positions `0, …, n-1` by their values. -/
def argsort1 (descending stable : Bool) (x : List Int) : List Nat :=
  insSort (fun i j => keyLe descending (x.getD i 0) (x.getD j 0))
    (List.range x.length)

/-- Gathering a lane by an index list (out-of-range indices default to 0;
the index lists produced here are always in range). -/
def gather1 (x : List Int) (idx : List Nat) : List Int :=
  idx.map (fun i => x.getD i 0)

/-- An n-d array viewed along a valid axis is its list of 1-d lanes; the
layer applies the lane contract to every lane. -/
def sortAxis (descending stable : Bool) (lanes : List (List Int)) : List (List Int) :=
  lanes.map (sort1 descending stable)

/-- Lane-wise `argsort` along an axis. -/
def argsortAxis (descending stable : Bool) (lanes : List (List Int)) : List (List Nat) :=
  lanes.map (argsort1 descending stable)

/-- Lane-wise gather along an axis. -/
def gatherAxis (lanes : List (List Int)) (idxs : List (List Nat)) : List (List Int) :=
  List.zipWith gather1 lanes idxs

theorem insertOrd_map (f : α → β) (le : β → β → Bool) (a : α) (l : List α) :
    (insertOrd (fun u v => le (f u) (f v)) a l).map f = insertOrd le (f a) (l.map f) := by
  induction l with
  | nil => rfl
  | cons h t ih =>
    by_cases hc : le (f a) (f h) = true
    · simp [insertOrd, hc]
    · simp [insertOrd, hc, ih]

theorem insSort_map (f : α → β) (le : β → β → Bool) (l : List α) :
    (insSort (fun u v => le (f u) (f v)) l).map f = insSort le (l.map f) := by
  induction l with
  | nil => rfl
  | cons a l ih =>
    simp [insSort, insertOrd_map, ih]

theorem map_getD_range (x : List Int) :
    (List.range x.length).map (fun i => x.getD i 0) = x := by
  apply List.ext_getElem
  · simp
  · intro i h1 h2
    simp [List.getElem?_eq_getElem h2]

theorem gather_argsort (descending stable : Bool) (x : List Int) :
    gather1 x (argsort1 descending stable x) = sort1 descending stable x := by
  unfold gather1 argsort1 sort1
  rw [insSort_map (fun i => x.getD i 0) (keyLe descending), map_getD_range]

/-- C2: for every array (given as its list of 1-d lanes along any valid
axis, the decomposition being shared by both calls) and for the same
`descending` and `stable` flags in both calls, gathering the array along
the axis by the index array returned by `argsort` yields exactly the
result of `sort`. -/
theorem argsort_sort_consistency (descending stable : Bool) (lanes : List (List Int)) :
    gatherAxis lanes (argsortAxis descending stable lanes) =
      sortAxis descending stable lanes := by
  induction lanes with
  | nil => rfl
  | cons h t ih =>
    simp [gatherAxis, argsortAxis, sortAxis, gather_argsort] at ih ⊢
    exact ih

theorem perm_insertOrd (le : α → α → Bool) (a : α) (l : List α) :
    List.Perm (insertOrd le a l) (a :: l) := by
  induction l with
  | nil => rfl
  | cons h t ih =>
    by_cases hc : le a h = true
    · simp [insertOrd, hc]
    · simp only [insertOrd, hc, if_neg, Bool.not_eq_true, ite_false]
      exact (ih.cons h).trans (List.Perm.swap a h t)

theorem perm_insSort (le : α → α → Bool) (l : List α) :
    List.Perm (insSort le l) l := by
  induction l with
  | nil => rfl
  | cons a l ih =>
    exact (perm_insertOrd le a (insSort le l)).trans (ih.cons a)

theorem sorted_insertOrd (le : α → α → Bool)
    (htr : ∀ u v w, le u v = true → le v w = true → le u w = true)
    (hto : ∀ u v, le u v = true ∨ le v u = true)
    (a : α) (l : List α) (hl : l.Pairwise (fun u v => le u v = true)) :
    (insertOrd le a l).Pairwise (fun u v => le u v = true) := by
  induction l with
  | nil => simp [insertOrd]
  | cons h t ih =>
    rcases List.pairwise_cons.1 hl with ⟨hh, ht⟩
    by_cases hc : le a h = true
    · simp only [insertOrd, hc, ite_true]
      refine List.pairwise_cons.2 ⟨?_, hl⟩
      intro b hb
      rcases List.mem_cons.1 hb with rfl | hb
      · exact hc
      · exact htr a h b hc (hh b hb)
    · simp only [insertOrd, hc, ite_false]
      refine List.pairwise_cons.2 ⟨?_, ih ht⟩
      intro b hb
      rcases List.mem_cons.1 ((perm_insertOrd le a t).mem_iff.1 hb) with rfl | hb
      · exact (hto b h).resolve_left hc
      · exact hh b hb

theorem sorted_insSort (le : α → α → Bool)
    (htr : ∀ u v w, le u v = true → le v w = true → le u w = true)
    (hto : ∀ u v, le u v = true ∨ le v u = true)
    (l : List α) : (insSort le l).Pairwise (fun u v => le u v = true) := by
  induction l with
  | nil => exact List.Pairwise.nil
  | cons a l ih =>
    exact sorted_insertOrd le htr hto a (insSort le l) ih

theorem pairwise_insertOrd_of (le : α → α → Bool) (S : α → α → Prop)
    (hco : ∀ u v, le u v = false → S v u)
    (a : α) (l : List α) (ha : ∀ x ∈ l, S a x) (hl : l.Pairwise S) :
    (insertOrd le a l).Pairwise S := by
  induction l with
  | nil => simp [insertOrd]
  | cons h t ih =>
    rcases List.pairwise_cons.1 hl with ⟨hh, ht⟩
    by_cases hc : le a h = true
    · simp only [insertOrd, hc, ite_true]
      exact List.pairwise_cons.2 ⟨ha, hl⟩
    · simp only [insertOrd, hc, ite_false]
      refine List.pairwise_cons.2 ⟨?_, ?_⟩
      · intro b hb
        rcases List.mem_cons.1 ((perm_insertOrd le a t).mem_iff.1 hb) with rfl | hb
        · exact hco b h (Bool.not_eq_true (le b h) ▸ hc)
        · exact hh b hb
      · exact ih (fun x hx => ha x (List.mem_cons_of_mem h hx)) ht

theorem pairwise_insSort_of (le : α → α → Bool) (S : α → α → Prop)
    (hco : ∀ u v, le u v = false → S v u)
    (l : List α) (hl : l.Pairwise S) : (insSort le l).Pairwise S := by
  induction l with
  | nil => exact List.Pairwise.nil
  | cons a l ih =>
    rcases List.pairwise_cons.1 hl with ⟨ha, hlt⟩
    refine pairwise_insertOrd_of le S hco a (insSort le l) ?_ (ih hlt)
    intro x hx
    exact ha x ((perm_insSort le l).mem_iff.1 hx)

theorem keyLe_trans (d : Bool) :
    ∀ u v w : Int, keyLe d u v = true → keyLe d v w = true → keyLe d u w = true := by
  intro u v w h1 h2
  cases d <;> simp [keyLe] at * <;> omega

theorem keyLe_total (d : Bool) :
    ∀ u v : Int, keyLe d u v = true ∨ keyLe d v u = true := by
  intro u v
  cases d <;> simp [keyLe] <;> omega

theorem sort1_pairwise (descending stable : Bool) (x : List Int) :
    (sort1 descending stable x).Pairwise (fun u v => keyLe descending u v = true) :=
  sorted_insSort (keyLe descending) (keyLe_trans descending) (keyLe_total descending) x

/-- Modelled from the spec: the backend `msort` — a merge sort applied to
the lanes along the leading axis (axis 0), ascending. -/
def msortM (lanes : List (List Int)) : List (List Int) :=
  lanes.map (fun l => l.mergeSort (fun a b => decide (a ≤ b)))

theorem mergeSort_eq_sort1 (l : List Int) :
    l.mergeSort (fun a b => decide (a ≤ b)) = sort1 false true l := by
  apply List.eq_of_perm_of_sorted (r := fun a b : Int => a ≤ b)
  · exact (List.mergeSort_perm l _).trans (perm_insSort _ l).symm
  · have h := @List.sorted_mergeSort Int (fun a b : Int => decide (a ≤ b))
      (fun a b c h1 h2 => by simp at *; omega)
      (fun a b => by simpa using Int.le_total a b) l
    exact h.imp (fun hab => by simpa using hab)
  · exact (sort1_pairwise false true l).imp (fun hab => by simpa [keyLe] using hab)

/-- C3: `msort` returns the same result as `sort` with `axis = 0`,
`descending = false`, `stable = true`: both sort the lanes along the
leading axis ascending, and on values any two ascending sorts of the same
lane agree. -/
theorem msort_eq_sort (lanes : List (List Int)) :
    msortM lanes = sortAxis false true lanes := by
  unfold msortM sortAxis
  exact List.map_congr_left (fun l _ => mergeSort_eq_sort1 l)

theorem range_pairwise_lt (n : Nat) : (List.range n).Pairwise (fun i j => i < j) := by
  rw [List.pairwise_iff_getElem]
  intro i j hi hj hij
  simpa using hij

/-- C5: with `stable := true`, any two entries of the index array returned
by `argsort` whose array values compare equal occur in strictly increasing
original-position order along the sorted axis. -/
theorem argsort_stable (descending : Bool) (x : List Int) :
    (argsort1 descending true x).Pairwise
      (fun i j => x.getD i 0 = x.getD j 0 → i < j) := by
  apply pairwise_insSort_of
  · intro u v huv heq
    exfalso
    cases descending <;> simp [keyLe, List.getD_eq_getElem?_getD] at huv heq <;> omega
  · refine List.Pairwise.imp ?_ (range_pairwise_lt x.length)
    intro a b hij
    exact fun _ => hij

/-- Modelled from the spec: the backend `argpartition` contract leaves the
order inside each partition unspecified, so the full stable ascending
argsort - which places every `kth` at its sorted position simultaneously -
is one permitted implementation and is the model used here; the `kind` and
`order` parameters only choose the selection algorithm and structured
field and do not affect the contract.  -/
def argpartitionM (x : List Int) (kth : Nat) : List Nat :=
  argsort1 false true x

theorem sort1_length (descending stable : Bool) (x : List Int) :
    (sort1 descending stable x).length = x.length :=
  (perm_insSort (keyLe descending) x).length_eq

theorem getD_eq_get (l : List Int) (i : Nat) (h : i < l.length) :
    l.getD i 0 = l.get ⟨i, h⟩ := by
  rw [List.getD_eq_getElem?_getD, List.getElem?_eq_getElem h]
  rfl

/-- C6: for every lane `x` and valid `kth = k`, with `idx = argpartition x k`,
every element of `x` at a gathered index below `k` is `≤` the element at
gathered index `k`, and every element at a gathered index above `k` is `≥`
it; the order inside each partition is unspecified by the contract and so is
not constrained here. -/
theorem argpartition_partitions (x : List Int) (k i j : Nat)
    (hk : k < x.length) (hik : i < k) (hkj : k < j) (hj : j < x.length) :
    (gather1 x (argpartitionM x k)).getD i 0 ≤
        (gather1 x (argpartitionM x k)).getD k 0 ∧
      (gather1 x (argpartitionM x k)).getD k 0 ≤
        (gather1 x (argpartitionM x k)).getD j 0 := by
  have hg : gather1 x (argpartitionM x k) = sort1 false true x :=
    gather_argsort false true x
  have hlen : (sort1 false true x).length = x.length := sort1_length false true x
  have hs := sort1_pairwise false true x
  rw [List.pairwise_iff_getElem] at hs
  rw [hg]
  constructor
  · have h1 := hs i k (by omega) (by omega) hik
    rw [getD_eq_get _ i (by omega), getD_eq_get _ k (by omega)]
    simpa [keyLe] using h1
  · have h1 := hs k j (by omega) (by omega) hkj
    rw [getD_eq_get _ k (by omega), getD_eq_get _ j (by omega)]
    simpa [keyLe] using h1

/-- Witness for the hypotheses of `argpartition_partitions` at
`x = [3, 1, 2, 0]`, `k = 1`, `i = 0`, `j = 2`. -/
theorem argpartition_partitions_witness :
    (1 < ([3, 1, 2, 0] : List Int).length ∧ 0 < 1 ∧ 1 < 2 ∧
        2 < ([3, 1, 2, 0] : List Int).length) ∧
      ((gather1 [3, 1, 2, 0] (argpartitionM [3, 1, 2, 0] 1)).getD 0 0 ≤
          (gather1 [3, 1, 2, 0] (argpartitionM [3, 1, 2, 0] 1)).getD 1 0 ∧
        (gather1 [3, 1, 2, 0] (argpartitionM [3, 1, 2, 0] 1)).getD 1 0 ≤
          (gather1 [3, 1, 2, 0] (argpartitionM [3, 1, 2, 0] 1)).getD 2 0) :=
  ⟨⟨by decide, by decide, by decide, by decide⟩,
    argpartition_partitions [3, 1, 2, 0] 1 0 2 (by decide) (by decide)
      (by decide) (by decide)⟩

/-- The two insertion sides accepted by `searchsorted`; the source default
is the left side. -/
inductive Side where
  | left : Side
  | right : Side

/-- Modelled from the spec: the backend `searchsorted` contract on one
probe value against a sorted lane: the left side counts the elements
strictly below the probe (the first valid insertion index), the right
side counts the elements not above it (the last valid insertion index). -/
def ss1 (x : List Int) (side : Side) (v : Int) : Nat :=
  match side with
  | Side.left => x.countP (fun e => decide (e < v))
  | Side.right => x.countP (fun e => decide (e ≤ v))

/-- Modelled from the spec: the backend `searchsorted` over a 1-d probe
array; a `sorter` permutation, when given, is applied to `x` before the
search. -/
def searchsortedM (x : List Int) (v : List Int) (side : Side)
    (sorter : Option (List Nat)) : List Nat :=
  let xs := match sorter with
    | none => x
    | some s => gather1 x s
  v.map (fun p => ss1 xs side p)

/-- A valid insertion index for `v` in `x`: everything before it is `≤ v`
and everything from it on is `≥ v`, so inserting `v` there keeps `x`
sorted. -/
def validIns (x : List Int) (v : Int) (i : Nat) : Prop :=
  (∀ e ∈ x.take i, e ≤ v) ∧ (∀ e ∈ x.drop i, v ≤ e)

theorem ssLeft_take_drop (v : Int) :
    ∀ x : List Int, x.Pairwise (fun a b : Int => a ≤ b) →
      (∀ e ∈ x.take (ss1 x Side.left v), e < v) ∧
        (∀ e ∈ x.drop (ss1 x Side.left v), v ≤ e) := by
  intro x
  induction x with
  | nil => intro _; simp [ss1]
  | cons h t ih =>
    intro hs
    rcases List.pairwise_cons.1 hs with ⟨hh, ht⟩
    by_cases hc : h < v
    · have hrec := ih ht
      have hcount : ss1 (h :: t) Side.left v = ss1 t Side.left v + 1 := by
        simp [ss1, List.countP_cons, hc]
      rw [hcount]
      constructor
      · intro e he
        rw [List.take_succ_cons] at he
        rcases List.mem_cons.1 he with rfl | he
        · exact hc
        · exact hrec.1 e he
      · intro e he
        rw [List.drop_succ_cons] at he
        exact hrec.2 e he
    · have hcount : ss1 (h :: t) Side.left v = 0 := by
        have ht0 : t.countP (fun e => decide (e < v)) = 0 := by
          apply List.countP_eq_zero.2
          intro e he
          have h1 := hh e he
          simp only [decide_eq_true_eq]
          omega
        simp [ss1, List.countP_cons, hc, ht0]
      rw [hcount]
      constructor
      · intro e he
        simp at he
      · intro e he
        rw [List.drop_zero] at he
        rcases List.mem_cons.1 he with rfl | he
        · omega
        · have h1 := hh e he
          omega

theorem ssRight_take_drop (v : Int) :
    ∀ x : List Int, x.Pairwise (fun a b : Int => a ≤ b) →
      (∀ e ∈ x.take (ss1 x Side.right v), e ≤ v) ∧
        (∀ e ∈ x.drop (ss1 x Side.right v), v < e) := by
  intro x
  induction x with
  | nil => intro _; simp [ss1]
  | cons h t ih =>
    intro hs
    rcases List.pairwise_cons.1 hs with ⟨hh, ht⟩
    by_cases hc : h ≤ v
    · have hrec := ih ht
      have hcount : ss1 (h :: t) Side.right v = ss1 t Side.right v + 1 := by
        simp [ss1, List.countP_cons, hc]
      rw [hcount]
      constructor
      · intro e he
        rw [List.take_succ_cons] at he
        rcases List.mem_cons.1 he with rfl | he
        · exact hc
        · exact hrec.1 e he
      · intro e he
        rw [List.drop_succ_cons] at he
        exact hrec.2 e he
    · have hcount : ss1 (h :: t) Side.right v = 0 := by
        have ht0 : t.countP (fun e => decide (e ≤ v)) = 0 := by
          apply List.countP_eq_zero.2
          intro e he
          have h1 := hh e he
          simp only [decide_eq_true_eq]
          omega
        simp [ss1, List.countP_cons, hc, ht0]
      rw [hcount]
      constructor
      · intro e he
        simp at he
      · intro e he
        rw [List.drop_zero] at he
        rcases List.mem_cons.1 he with rfl | he
        · omega
        · have h1 := hh e he
          omega

theorem ss1_le_length (x : List Int) (side : Side) (v : Int) :
    ss1 x side v ≤ x.length := by
  cases side <;> exact List.countP_le_length _

theorem get_mem_take (x : List Int) (i c : Nat) (hic : i < c) (hi : i < x.length) :
    x.get ⟨i, hi⟩ ∈ x.take c := by
  have h1 : i < (x.take c).length := by
    simp only [List.length_take]
    omega
  have h2 : (x.take c).get ⟨i, h1⟩ = x.get ⟨i, hi⟩ := by
    simp [List.get_eq_getElem, List.getElem_take]
  rw [← h2]
  exact List.get_mem _ _ _

theorem get_mem_drop (x : List Int) (i : Nat) (hi : i < x.length) :
    x.get ⟨i, hi⟩ ∈ x.drop i := by
  rw [List.drop_eq_getElem_cons hi]
  exact List.mem_cons_self _ _

/-- C4: `searchsorted` maps the scalar search over the probe array, and
for a sorted `x` and each probe element `v`: the left side returns a valid
insertion index and is the first such index; the right side returns a
valid insertion index and is the last such index; when `v` occurs in `x`,
`x` at the left index equals `v`; and the left index never exceeds the
right index. -/
theorem searchsorted_spec (x vs : List Int)
    (hs : x.Pairwise (fun a b : Int => a ≤ b)) :
    searchsortedM x vs Side.left none = vs.map (fun v => ss1 x Side.left v) ∧
      ∀ v ∈ vs,
        (validIns x v (ss1 x Side.left v) ∧
            ∀ i, validIns x v i → ss1 x Side.left v ≤ i) ∧
          (validIns x v (ss1 x Side.right v) ∧
            ∀ i, i ≤ x.length → validIns x v i → i ≤ ss1 x Side.right v) ∧
          (v ∈ x → ∃ h : ss1 x Side.left v < x.length,
            x.get ⟨ss1 x Side.left v, h⟩ = v) ∧
          ss1 x Side.left v ≤ ss1 x Side.right v := by
  refine ⟨rfl, ?_⟩
  intro v hv
  have hL := ssLeft_take_drop v x hs
  have hR := ssRight_take_drop v x hs
  refine ⟨⟨⟨?_, hL.2⟩, ?_⟩, ⟨⟨hR.1, ?_⟩, ?_⟩, ?_, ?_⟩
  · intro e he
    exact le_of_lt (hL.1 e he)
  · -- first valid insertion index
    intro i hi
    by_contra hcon
    push_neg at hcon
    have hilen : i < x.length :=
      lt_of_lt_of_le hcon (ss1_le_length x Side.left v)
    have h1 : x.get ⟨i, hilen⟩ < v :=
      hL.1 _ (get_mem_take x i (ss1 x Side.left v) hcon hilen)
    have h2 : v ≤ x.get ⟨i, hilen⟩ := hi.2 _ (get_mem_drop x i hilen)
    omega
  · intro e he
    exact le_of_lt (hR.2 e he)
  · -- last valid insertion index
    intro i hilen hi
    by_contra hcon
    push_neg at hcon
    have hclen : ss1 x Side.right v < x.length := lt_of_lt_of_le hcon hilen
    have h1 : v < x.get ⟨ss1 x Side.right v, hclen⟩ :=
      hR.2 _ (get_mem_drop x (ss1 x Side.right v) hclen)
    have h2 : x.get ⟨ss1 x Side.right v, hclen⟩ ≤ v :=
      hi.1 _ (get_mem_take x (ss1 x Side.right v) i hcon hclen)
    omega
  · -- round trip at a present value
    intro hvx
    have hnotTake : v ∉ x.take (ss1 x Side.left v) := by
      intro hmem
      exact absurd (hL.1 v hmem) (lt_irrefl v)
    have hvdrop : v ∈ x.drop (ss1 x Side.left v) := by
      rcases List.mem_append.1 ((List.take_append_drop (ss1 x Side.left v) x) ▸ hvx)
        with hmem | hmem
      · exact absurd hmem hnotTake
      · exact hmem
    have hclen : ss1 x Side.left v < x.length := by
      by_contra hge
      push_neg at hge
      rw [List.drop_eq_nil_of_le hge] at hvdrop
      exact List.not_mem_nil v hvdrop
    refine ⟨hclen, ?_⟩
    have hge : v ≤ x.get ⟨ss1 x Side.left v, hclen⟩ :=
      hL.2 _ (get_mem_drop x (ss1 x Side.left v) hclen)
    have hle : x.get ⟨ss1 x Side.left v, hclen⟩ ≤ v := by
      have hdropSorted : (x.drop (ss1 x Side.left v)).Pairwise
          (fun a b : Int => a ≤ b) :=
        hs.sublist (List.drop_sublist _ x)
      rw [List.drop_eq_getElem_cons hclen] at hvdrop hdropSorted
      rcases List.mem_cons.1 hvdrop with heq | hmem
      · exact le_of_eq heq.symm
      · exact (List.pairwise_cons.1 hdropSorted).1 v hmem
    omega
  · -- left never exceeds right
    apply List.countP_mono_left
    intro e he hp
    simp only [decide_eq_true_eq] at hp ⊢
    omega

/-- Witness for the hypothesis of `searchsorted_spec` at
`x = [0, 1, 2, 2, 3]`, `vs = [2]`, extracting the left-not-above-right
conclusion for the probe `2`. -/
theorem searchsorted_spec_witness :
    ([0, 1, 2, 2, 3] : List Int).Pairwise (fun a b : Int => a ≤ b) ∧
      ss1 [0, 1, 2, 2, 3] Side.left 2 ≤ ss1 [0, 1, 2, 2, 3] Side.right 2 :=
  ⟨by decide,
    ((searchsorted_spec [0, 1, 2, 2, 3] [2] (by decide)).2 2
      (by decide)).2.2.2⟩

/-- Modelled from the spec: `searchsorted` with a 2-d probe array applies
the scalar search elementwise, preserving the probe array's shape. -/
def searchsorted2 (x : List Int) (rows : List (List Int)) (side : Side) :
    List (List Nat) :=
  rows.map (fun r => r.map (fun p => ss1 x side p))

/-- C7: the docstring scenario: `x = [0, 1, 2, 3, 4, 5]`,
`v = [[3, 1], [10, 3], [-2, -1]]` and the default side (left) return the
index array `[[3, 1], [6, 3], [0, 0]]`. -/
theorem searchsorted_scenario :
    searchsorted2 [0, 1, 2, 3, 4, 5] [[3, 1], [10, 3], [-2, -1]] Side.left =
      [[3, 1], [6, 3], [0, 0]] := by decide

mutual
/-- A nested container: a leaf holding a 1-d array, or an internal node
with an insertion-ordered list of string-keyed children. -/
inductive Cont where
  | leaf : List Int → Cont
  | node : Entries → Cont
/-- The ordered key-to-child entries of an internal container node. -/
inductive Entries where
  | nil : Entries
  | cons : String → Cont → Entries → Entries
end

/-- Modelled from the spec: key-chain selection — `none` selects every
chain; an explicit selector selects exactly the listed chains, a chain
being its list of keys from the root. -/
def selectedChain (sel : Option (List (List String))) (path : List String) : Bool :=
  match sel with
  | none => true
  | some chains => chains.contains path

mutual
/-- Modelled from the spec: the Structural Mapper of
`ContainerBase.cont_multi_map_in_function` (outside this excerpt): apply
the leaf operation across the container, deciding application per
key-chain. -/
def mapCont (op : List Int → List Int) (sel : Option (List (List String)))
    (toApply prune : Bool) (path : List String) : Cont → Cont
  | Cont.leaf a => Cont.leaf (op a)
  | Cont.node es => Cont.node (mapEntries op sel toApply prune path es)
/-- Modelled from the spec: the per-entry traversal of the Structural
Mapper: an entry is applied when `toApply` matches its selection; an
unapplied entry is omitted when `prune` is set and copied unchanged
otherwise. -/
def mapEntries (op : List Int → List Int) (sel : Option (List (List String)))
    (toApply prune : Bool) (path : List String) : Entries → Entries
  | Entries.nil => Entries.nil
  | Entries.cons k c rest =>
    if (toApply && selectedChain sel (path ++ [k])) ||
        (!toApply && !selectedChain sel (path ++ [k])) then
      Entries.cons k (mapCont op sel toApply prune (path ++ [k]) c)
        (mapEntries op sel toApply prune path rest)
    else if prune then mapEntries op sel toApply prune path rest
    else Entries.cons k c (mapEntries op sel toApply prune path rest)
end

mutual
/-- The key structure of a container: the same tree with leaf data
erased, capturing keys, nesting and insertion order. -/
def shapeOf : Cont → Cont
  | Cont.leaf _ => Cont.leaf []
  | Cont.node es => Cont.node (shapeEntries es)
/-- The key structure of a node's entry list. -/
def shapeEntries : Entries → Entries
  | Entries.nil => Entries.nil
  | Entries.cons k c rest => Entries.cons k (shapeOf c) (shapeEntries rest)
end

mutual
theorem shape_mapCont (op : List Int → List Int) (path : List String) :
    ∀ c : Cont, shapeOf (mapCont op none true false path c) = shapeOf c
  | Cont.leaf a => rfl
  | Cont.node es => by
    simp only [mapCont, shapeOf]
    rw [shape_mapEntries op path es]
theorem shape_mapEntries (op : List Int → List Int) (path : List String) :
    ∀ es : Entries,
      shapeEntries (mapEntries op none true false path es) = shapeEntries es
  | Entries.nil => rfl
  | Entries.cons k c rest => by
    simp only [mapEntries, selectedChain, Bool.and_true, Bool.true_and,
      Bool.not_true, Bool.false_and, Bool.or_false, if_true]
    simp only [shapeEntries]
    rw [shape_mapCont op (path ++ [k]) c, shape_mapEntries op path rest]
end

/-- C8: with full selection (`key_chains := none`), `to_apply := true` and
`prune_unapplied := false`, the structural mapper used by every container
static form returns a container with exactly the key structure (keys,
nesting, insertion order) of its input, for every leaf operation. -/
theorem mapper_preserves_structure (op : List Int → List Int) (c : Cont) :
    shapeOf (mapCont op none true false [] c) = shapeOf c :=
  shape_mapCont op [] c

/-- The method names bound in the class body of `_ContainerWithSorting`,
in source order.  `_static_argpartition` and `argpartition` are dedented
to module scope and so are not in the class body, and the searchsorted
pair sits after the unconditional `return` of the module-level
`argpartition`, so it is never executed nor bound anywhere. -/
def containerSortingMethods : List String :=
  ["_static_argsort", "argsort", "_static_sort", "sort", "static_msort", "msort"]

/-- The names bound at module scope in
`data_classes/container/sorting.py`, in source order. -/
def moduleLevelNames : List String :=
  ["_ContainerWithSorting", "_static_argpartition", "argpartition"]

/-- Modelled from the spec and source: the body of the module-level
instance form of `argpartition` evaluates `self._static_argpartition`,
which Python resolves against the class bindings of the instance; the
lookup raises `AttributeError` when the name is not bound, and otherwise
the static form would map the backend operation over the container. -/
def argpartitionInstanceCall (classAttrs : List String) (self : Cont)
    (kth : Nat) : Except String Cont :=
  if "_static_argpartition" ∈ classAttrs then
    Except.ok
      (mapCont (fun lane => (argpartitionM lane kth).map Int.ofNat) none true
        false [] self)
  else Except.error ("AttributeError")

/-- C1 (failing evaluation): the instance-method call form of
`argpartition` on a concrete container raises an attribute error instead
of delegating to a static form, because the class `_ContainerWithSorting`
does not bind `_static_argpartition`; the spec and the function's own
docstring examples require the delegation to succeed, so this is a defect
of the code (the argpartition pair is dedented out of the class body). -/
theorem argpartition_instance_call_fails :
    argpartitionInstanceCall containerSortingMethods
      (Cont.node (Entries.cons ("a") (Cont.leaf [3, 1, 2]) Entries.nil)) 1 =
      Except.error ("AttributeError") := by
  rfl

/-- C10: the container class binds exactly the argsort, sort and msort
pairs; neither argpartition name is bound on the class, the dead
searchsorted pair is bound neither on the class nor at module scope, and
every module-level instance-form argpartition call on a container fails
with an attribute error rather than returning a partitioned container. -/
theorem container_class_surface :
    ("argsort" ∈ containerSortingMethods ∧ "sort" ∈ containerSortingMethods ∧
        "msort" ∈ containerSortingMethods ∧
        "_static_argsort" ∈ containerSortingMethods ∧
        "_static_sort" ∈ containerSortingMethods ∧
        "static_msort" ∈ containerSortingMethods) ∧
      ("argpartition" ∉ containerSortingMethods ∧
        "_static_argpartition" ∉ containerSortingMethods ∧
        "searchsorted" ∉ containerSortingMethods ∧
        "_static_searchsorted" ∉ containerSortingMethods) ∧
      ("_static_argpartition" ∈ moduleLevelNames ∧
        "argpartition" ∈ moduleLevelNames ∧
        "searchsorted" ∉ moduleLevelNames ∧
        "_static_searchsorted" ∉ moduleLevelNames) ∧
      ∀ (c : Cont) (kth : Nat),
        argpartitionInstanceCall containerSortingMethods c kth =
          Except.error ("AttributeError") := by
  refine ⟨by decide, by decide, by decide, ?_⟩
  intro c kth
  rfl

/-- The parameter names of the functional-layer `argsort`, source order. -/
def argsort_params : List String :=
  ["x", "axis", "descending", "stable", "out"]

/-- The parameter names of the functional-layer `sort`, source order. -/
def sort_params : List String :=
  ["x", "axis", "descending", "stable", "out"]

/-- The parameter names of the functional-layer `msort`, source order. -/
def msort_params : List String :=
  ["a", "out"]

/-- The parameter names of the functional-layer `searchsorted`. -/
def searchsorted_params : List String :=
  ["x", "v", "side", "sorter", "ret_dtype", "out"]

/-- The parameter names of the functional-layer `argpartition`. -/
def argpartition_params : List String :=
  ["x", "kth", "axis", "kind", "order"]

/-- C9: the functional `argpartition` accepts no `out` parameter, unlike
sort, argsort, msort and searchsorted, so it always returns a fresh index
array and never writes its result into a caller-supplied output. -/
theorem argpartition_no_out :
    ("out" ∉ argpartition_params) ∧ ("out" ∈ argsort_params) ∧
      ("out" ∈ sort_params) ∧ ("out" ∈ msort_params) ∧
      ("out" ∈ searchsorted_params) := by decide

end IvySorting
